import Mathlib

/-!
Shallow embedding of the `react-native-incremental` core:

* `IncrementalGroupContextType` — the ambient scope context published by a
  group (`IncrementalGroupContext.tsx`).
* `Incremental` (the Chunk Unit) — modelled as an explicit state machine:
  the render body, the two mount effects (queue submission and the
  mounted/onDone effect), the queued task (`gen`, the `.then` handler and
  the `.catch` annotation), unmount, and re-renders (`Incremental.tsx`).
* `IncrementalGroup` (the Scope Group) — the published child context and the
  hierarchical scope id built from the process-wide counter
  (`IncrementalGroup.tsx`).
* `IncrementalPresenter` (the Presentation Wrapper) — the style phases and
  the internal completion handler (`IncrementalPresenter.tsx`).

JavaScript truthiness and `undefined` coercions are made explicit through
small helper functions; callbacks are instrumented by counting invocations.
-/

/-- The context value published by a Scope Group (`IncrementalGroupContextType`). -/
structure IncrementalGroupContextType where
  enabled : Bool
  groupId : String
  incrementalCount : Int
deriving DecidableEq, Repr

/-- JS truthiness of `context?.enabled`: `undefined` is falsy when the
context is absent. -/
def optCtxEnabled (ctx : Option IncrementalGroupContextType) : Bool :=
  match ctx with
  | some c => c.enabled
  | none => false

/-- JS test `context?.enabled === false` (`undefined === false` is `false`). -/
def ctxEnabledIsFalse (ctx : Option IncrementalGroupContextType) : Bool :=
  match ctx with
  | some c => c.enabled == false
  | none => false

/-- JS string coercion of a `string | undefined` value used in `+` concatenation. -/
def jsStrOrUndefined (s : Option String) : String := s.getD "undefined"

/-- Per-instance mutable state of one `Incremental` component:
`doIncrementalRender` (React state), `mountedRef`, `renderedRef`, and an
instrumentation counter for `onDone` invocations. -/
structure IncState where
  doIncrementalRender : Bool
  mounted : Bool
  rendered : Bool
  onDoneCount : Nat
deriving DecidableEq, Repr

/-- Initial state: `useState(false)`, refs `false`, no callback fired yet. -/
def IncState.init : IncState :=
  { doIncrementalRender := false, mounted := false, rendered := false, onDoneCount := 0 }

/-- The render body of `Incremental`: returns whether the children are
rendered in this evaluation together with the updated state
(`renderedRef.current = true` on the rendering branch).  Mirrors
`if (renderedRef.current || !context?.enabled || doIncrementalRender)`. -/
def renderBody (ctx : Option IncrementalGroupContextType) (s : IncState) : Bool × IncState :=
  if s.rendered || !(optCtxEnabled ctx) || s.doIncrementalRender then
    (true, { s with rendered := true })
  else
    (false, s)

/-- `const incrementalId = (context?.incrementalCount ?? 0) + 1`. -/
def incrementalId (ctx : Option IncrementalGroupContextType) : Int :=
  (match ctx with
   | some c => c.incrementalCount
   | none => 0) + 1

/-- `getName()`: `context?.groupId + ':' + incrementalIdRef.current + '-' + name`.
The context and instance id are the ones captured at mount. -/
def getName (ctx0 : Option IncrementalGroupContextType) (incId : Int)
    (nm : Option String) : String :=
  jsStrOrUndefined (ctx0.map (fun c => c.groupId)) ++ ":" ++ toString incId ++ "-" ++
    jsStrOrUndefined nm

/-- React `useRef` semantics for `incrementalIdRef`: the first render stores
the initial value and every later render returns the stored value. -/
def renderIncId (ctx : Option IncrementalGroupContextType) (stored : Option Int) : Int :=
  stored.getD (incrementalId ctx)

/-- The `gen` body of the queued task: if unmounted or already rendered,
resolve with no effect; otherwise set `doIncrementalRender = true`. -/
def taskGen (s : IncState) : IncState :=
  if !s.mounted || s.rendered then s else { s with doIncrementalRender := true }

/-- The `.then` handler after the queued task settles successfully:
invoke `onDone` only if still mounted. -/
def taskThen (s : IncState) : IncState :=
  if s.mounted then { s with onDoneCount := s.onDoneCount + 1 } else s

/-- One execution of the instance's queued interaction-manager task.
`genError = some msg` models the render step rejecting with message `msg`:
the `.then` handler is skipped (no `onDone`) and the `.catch` handler
re-raises the error annotated with the diagnostic name.  On success the
state passes through `taskGen` and then `taskThen`. -/
def runQueuedTask (ctx0 : Option IncrementalGroupContextType) (nm : Option String)
    (genError : Option String) (s : IncState) : IncState × Option String :=
  match genError with
  | some msg =>
      (s, some ("Incremental render failed for " ++
        getName ctx0 (incrementalId ctx0) nm ++ ": " ++ msg))
  | none => (taskThen (taskGen s), none)

/-- Unmount: the cleanup of the second effect flips `mountedRef` to false. -/
def unmount (s : IncState) : IncState := { s with mounted := false }

/-- Result of the initial mount pass: the state after render and both
effects, whether the children rendered in the initial evaluation, and the
diagnostic names of the tasks submitted to the interaction queue. -/
structure MountResult where
  state : IncState
  renders : Bool
  queued : List String
deriving DecidableEq, Repr

/-- The initial mount pass of `Incremental`: evaluate the render body from
the initial state, then run the two effects in declaration order.  The
first effect submits one task to the interaction queue unless the context
is absent; the second sets `mountedRef` and, when the context is absent,
invokes `onDone` immediately. -/
def mountPass (ctx : Option IncrementalGroupContextType) (nm : Option String) : MountResult :=
  let r := renderBody ctx IncState.init
  let queued : List String :=
    match ctx with
    | none => []
    | some _ => ["Incremental:" ++ getName ctx (incrementalId ctx) nm]
  let s2 : IncState := { r.2 with mounted := true }
  let s3 : IncState :=
    match ctx with
    | none => { s2 with onDoneCount := s2.onDoneCount + 1 }
    | some _ => s2
  { state := s3, renders := r.1, queued := queued }

/-- A sequence of re-evaluations of the render body with the ambient
contexts seen at each re-render. -/
def applyRerenders (ctxs : List (Option IncrementalGroupContextType)) (s : IncState) :
    IncState :=
  ctxs.foldl (fun t c => (renderBody c t).2) s

/-- Events that can happen to a mounted instance after the initial mount
pass: a re-render with some ambient context, an execution of a queued task
(with the data captured at submission and an optional injected failure),
or unmount. -/
inductive IncEvent where
  | evalRender (ctx : Option IncrementalGroupContextType)
  | queueTask (ctx0 : Option IncrementalGroupContextType) (nm : Option String)
      (genError : Option String)
  | unmountEv
deriving DecidableEq, Repr

/-- The state transition for one event. -/
def stepIncEvent (s : IncState) : IncEvent → IncState
  | .evalRender ctx => (renderBody ctx s).2
  | .queueTask c n g => (runQueuedTask c n g s).1
  | .unmountEv => unmount s

/-- Run a list of events in order. -/
def runIncEvents (evs : List IncEvent) (s : IncState) : IncState :=
  evs.foldl stepIncEvent s

/-! Basic preservation lemmas about the Chunk Unit state machine. -/

theorem renderBody_preserves (ctx : Option IncrementalGroupContextType) (s : IncState) :
    ((renderBody ctx s).2).mounted = s.mounted ∧
    ((renderBody ctx s).2).onDoneCount = s.onDoneCount ∧
    ((renderBody ctx s).2).doIncrementalRender = s.doIncrementalRender := by
  unfold renderBody
  split <;> simp

theorem applyRerenders_preserves (l : List (Option IncrementalGroupContextType)) :
    ∀ s : IncState,
      (applyRerenders l s).mounted = s.mounted ∧
      (applyRerenders l s).onDoneCount = s.onDoneCount := by
  induction l with
  | nil => intro s; exact ⟨rfl, rfl⟩
  | cons c t ih =>
      intro s
      have h1 := renderBody_preserves c s
      have h2 := ih ((renderBody c s).2)
      refine ⟨?_, ?_⟩
      · rw [show applyRerenders (c :: t) s = applyRerenders t ((renderBody c s).2) from rfl,
          h2.1, h1.1]
      · rw [show applyRerenders (c :: t) s = applyRerenders t ((renderBody c s).2) from rfl,
          h2.2, h1.2.1]

theorem taskGen_preserves (s : IncState) :
    (taskGen s).mounted = s.mounted ∧ (taskGen s).onDoneCount = s.onDoneCount := by
  unfold taskGen
  split <;> simp

theorem taskThen_counts (s : IncState) (h : s.mounted = true) :
    (taskThen s).onDoneCount = s.onDoneCount + 1 := by
  unfold taskThen
  simp [h]

theorem mountPass_some_state (c : IncrementalGroupContextType) (nm : Option String) :
    (mountPass (some c) nm).state.mounted = true ∧
    (mountPass (some c) nm).state.onDoneCount = 0 ∧
    (mountPass (some c) nm).queued.length = 1 := by
  unfold mountPass renderBody IncState.init
  split <;> simp

theorem stepIncEvent_rendered (s : IncState) (e : IncEvent) (h : s.rendered = true) :
    (stepIncEvent s e).rendered = true := by
  cases e with
  | evalRender ctx => simp [stepIncEvent, renderBody, h]
  | queueTask c n g =>
      cases g with
      | some m => simpa [stepIncEvent, runQueuedTask] using h
      | none =>
          simp only [stepIncEvent, runQueuedTask, taskGen, taskThen]
          split <;> split <;> simp [h]
  | unmountEv => simpa [stepIncEvent, unmount] using h

theorem runIncEvents_rendered (evs : List IncEvent) :
    ∀ s : IncState, s.rendered = true → (runIncEvents evs s).rendered = true := by
  induction evs with
  | nil => intro s h; exact h
  | cons e t ih =>
      intro s h
      exact ih (stepIncEvent s e) (stepIncEvent_rendered s e h)

/-- Auxiliary String facts used to express substring containment. -/
theorem stringAppend_assoc (a b c : String) : a ++ b ++ c = a ++ (b ++ c) := by
  apply String.ext
  simp [String.data_append]

/-- C1: for a Chunk Unit mounted with an ambient context whose `enabled`
flag is true, that stays mounted through the point where its queued task
runs without failure, `onDone` fires exactly once over the whole lifetime:
zero times during the mount pass and through any re-renders before the
queue drains, exactly once when the task settles, and no further
invocation through later re-renders and unmount.  The mount pass submits
exactly one task. -/
theorem spec_C1_onDone_exactly_once (gid : String) (cnt : Int) (nm : Option String)
    (pre post : List (Option IncrementalGroupContextType)) :
    (mountPass (some ⟨true, gid, cnt⟩) nm).state.onDoneCount = 0 ∧
    (mountPass (some ⟨true, gid, cnt⟩) nm).queued.length = 1 ∧
    (applyRerenders pre (mountPass (some ⟨true, gid, cnt⟩) nm).state).onDoneCount = 0 ∧
    (unmount (applyRerenders post
      (runQueuedTask (some ⟨true, gid, cnt⟩) nm none
        (applyRerenders pre (mountPass (some ⟨true, gid, cnt⟩) nm).state)).1)).onDoneCount
      = 1 := by
  have hm := mountPass_some_state ⟨true, gid, cnt⟩ nm
  have hp := applyRerenders_preserves pre (mountPass (some ⟨true, gid, cnt⟩) nm).state
  have h1m : (applyRerenders pre (mountPass (some ⟨true, gid, cnt⟩) nm).state).mounted
      = true := by rw [hp.1, hm.1]
  have h1c : (applyRerenders pre (mountPass (some ⟨true, gid, cnt⟩) nm).state).onDoneCount
      = 0 := by rw [hp.2, hm.2.1]
  refine ⟨hm.2.1, hm.2.2, h1c, ?_⟩
  have hg := taskGen_preserves (applyRerenders pre (mountPass (some ⟨true, gid, cnt⟩) nm).state)
  have hgm : (taskGen (applyRerenders pre
      (mountPass (some ⟨true, gid, cnt⟩) nm).state)).mounted = true := by rw [hg.1, h1m]
  have h2c : (taskThen (taskGen (applyRerenders pre
      (mountPass (some ⟨true, gid, cnt⟩) nm).state))).onDoneCount = 1 := by
    rw [taskThen_counts _ hgm, hg.2, h1c]
  have h3 := applyRerenders_preserves post (taskThen (taskGen (applyRerenders pre
      (mountPass (some ⟨true, gid, cnt⟩) nm).state)))
  show (unmount (applyRerenders post (taskThen (taskGen (applyRerenders pre
      (mountPass (some ⟨true, gid, cnt⟩) nm).state))))).onDoneCount = 1
  simp only [unmount]
  rw [h3.2, h2c]

/-- C2: when the queued render task of a Chunk Unit fails, `onDone` is
never invoked (the completion count is zero through mount, any re-renders,
the failing task, and any later re-renders), and the error is re-raised
with a message containing the diagnostic name (built from the scope id,
instance id and local name) and the original message. -/
theorem spec_C2_failed_task_no_onDone (c : IncrementalGroupContextType)
    (nm : Option String) (pre : List (Option IncrementalGroupContextType))
    (msg : String) :
    runQueuedTask (some c) nm (some msg)
        (applyRerenders pre (mountPass (some c) nm).state) =
      (applyRerenders pre (mountPass (some c) nm).state,
        some ("Incremental render failed for " ++
          getName (some c) (incrementalId (some c)) nm ++ ": " ++ msg)) ∧
    (applyRerenders pre (mountPass (some c) nm).state).onDoneCount = 0 ∧
    (∀ post, (applyRerenders post
      (applyRerenders pre (mountPass (some c) nm).state)).onDoneCount = 0) ∧
    (∃ x y, "Incremental render failed for " ++
        getName (some c) (incrementalId (some c)) nm ++ ": " ++ msg =
      x ++ getName (some c) (incrementalId (some c)) nm ++ y) ∧
    (∃ x y, "Incremental render failed for " ++
        getName (some c) (incrementalId (some c)) nm ++ ": " ++ msg =
      x ++ msg ++ y) := by
  have hm := mountPass_some_state c nm
  have hp := applyRerenders_preserves pre (mountPass (some c) nm).state
  have h1c : (applyRerenders pre (mountPass (some c) nm).state).onDoneCount = 0 := by
    rw [hp.2, hm.2.1]
  refine ⟨rfl, h1c, ?_, ?_, ?_⟩
  · intro post
    rw [(applyRerenders_preserves post _).2, h1c]
  · exact ⟨"Incremental render failed for ", ": " ++ msg, by
      rw [stringAppend_assoc]⟩
  · exact ⟨"Incremental render failed for " ++
        getName (some c) (incrementalId (some c)) nm ++ ": ", "", by
      rw [String.append_empty]⟩

/-- C3 counterexample: for a Chunk Unit whose ambient context is present
with `enabled = false`, the mount pass does submit a task to the
interaction queue (the claim says none is submitted) and `onDone` has not
fired when the mount pass returns (the claim says it fires before). -/
theorem spec_C3_counterexample :
    (mountPass (some ⟨false, "g0-row", -1⟩) (some "w")).queued.length = 1 ∧
    (mountPass (some ⟨false, "g0-row", -1⟩) (some "w")).state.onDoneCount = 0 ∧
    (mountPass (some ⟨false, "g0-row", -1⟩) (some "w")).renders = true := by
  refine ⟨rfl, rfl, rfl⟩

/-- C3 amended: with an ambient context present and `enabled = false` the
children do render immediately in the initial mount pass, but a task is
still submitted to the interaction queue; the task is a render no-op (the
state is unchanged except for the completion count) and `onDone` fires
only when that queued task settles, not during the mount pass. -/
theorem spec_C3_disabled_context_behavior (gid : String) (cnt : Int) (nm : Option String) :
    (mountPass (some ⟨false, gid, cnt⟩) nm).renders = true ∧
    (mountPass (some ⟨false, gid, cnt⟩) nm).state.rendered = true ∧
    (mountPass (some ⟨false, gid, cnt⟩) nm).queued.length = 1 ∧
    (mountPass (some ⟨false, gid, cnt⟩) nm).state.onDoneCount = 0 ∧
    (runQueuedTask (some ⟨false, gid, cnt⟩) nm none
        (mountPass (some ⟨false, gid, cnt⟩) nm).state).1 =
      { (mountPass (some ⟨false, gid, cnt⟩) nm).state with onDoneCount := 1 } := by
  refine ⟨rfl, rfl, rfl, rfl, rfl⟩

/-- C4: the `hasRendered` latch (`renderedRef`) is monotone: once true, the
render body renders the children regardless of the current enablement
value, keeps the latch true, and no later event (re-render with any
context, queued-task execution with or without failure, unmount) ever
resets it. -/
theorem spec_C4_hasRendered_latch (s : IncState) (h : s.rendered = true) :
    (∀ ctx, (renderBody ctx s).1 = true ∧ ((renderBody ctx s).2).rendered = true) ∧
    (∀ evs, (runIncEvents evs s).rendered = true) := by
  refine ⟨fun ctx => ?_, fun evs => runIncEvents_rendered evs s h⟩
  simp [renderBody, h]

/-- C4 witness: a state with the latch set keeps rendering and keeps the
latch across a disabled-context re-render, a task execution and unmount. -/
theorem spec_C4_witness :
    (renderBody (some ⟨false, "g0-row", -1⟩) ⟨false, true, true, 0⟩).1 = true ∧
    (runIncEvents [IncEvent.evalRender (some ⟨false, "g0-row", -1⟩),
        IncEvent.queueTask none none none, IncEvent.unmountEv]
      ⟨false, true, true, 0⟩).rendered = true :=
  ⟨((spec_C4_hasRendered_latch ⟨false, true, true, 0⟩ rfl).1
      (some ⟨false, "g0-row", -1⟩)).1,
    (spec_C4_hasRendered_latch ⟨false, true, true, 0⟩ rfl).2
      [IncEvent.evalRender (some ⟨false, "g0-row", -1⟩),
        IncEvent.queueTask none none none, IncEvent.unmountEv]⟩

/-- C5: a queued task that executes after the instance has unmounted is a
complete no-op: it performs no state transition (in particular no
render-flag mutation) and does not invoke `onDone`, whether or not a
failure is injected. -/
theorem spec_C5_unmounted_task_noop (s : IncState)
    (ctx0 : Option IncrementalGroupContextType) (nm : Option String)
    (g : Option String) :
    (runQueuedTask ctx0 nm g (unmount s)).1 = unmount s ∧
    ((runQueuedTask ctx0 nm g (unmount s)).1).doIncrementalRender =
      s.doIncrementalRender ∧
    ((runQueuedTask ctx0 nm g (unmount s)).1).onDoneCount = s.onDoneCount := by
  have h : (runQueuedTask ctx0 nm g (unmount s)).1 = unmount s := by
    cases g with
    | some m => rfl
    | none => simp [runQueuedTask, taskGen, taskThen, unmount]
  exact ⟨h, by rw [h]; rfl, by rw [h]; rfl⟩

/-- C6: a Chunk Unit with no ambient context renders its children in the
initial evaluation, invokes `onDone` during the same mount pass, and
submits nothing to the interaction queue. -/
theorem spec_C6_no_context_sync (nm : Option String) :
    mountPass none nm =
      { state := { doIncrementalRender := false, mounted := true,
                   rendered := true, onDoneCount := 1 },
        renders := true, queued := [] } := rfl

/-- C10 counterexample: with no ambient context `assignedId`
(`incrementalId`) is 1, not 0 as the claim states. -/
theorem spec_C10_counterexample :
    incrementalId none = 1 ∧ incrementalId none ≠ 0 := by decide

/-- C10 amended: `assignedId` is the ambient chunk seed plus one
(`(context?.incrementalCount ?? 0) + 1`), so it equals 1 — not 0 — when no
ambient context is present, and the value stored in the ref at first
evaluation is returned unchanged by every later evaluation. -/
theorem spec_C10_assignedId_seed_plus_one :
    (∀ c : IncrementalGroupContextType, incrementalId (some c) = c.incrementalCount + 1) ∧
    incrementalId none = 1 ∧
    (∀ ctx0 ctx1 : Option IncrementalGroupContextType,
      renderIncId ctx1 (some (incrementalId ctx0)) = incrementalId ctx0) :=
  ⟨fun _ => rfl, rfl, fun _ _ => rfl⟩

/-! Scope Group: the published child context (`IncrementalGroup.tsx`). -/

/-- JS test `context?.enabled !== false` (`undefined !== false` is `true`). -/
def ambientNotFalse (ctx : Option IncrementalGroupContextType) : Bool :=
  match ctx with
  | some c => !(c.enabled == false)
  | none => true

/-- The context a group publishes to its subtree:
`{ enabled: !(disabled || context?.enabled === false), groupId: getGroupId(), incrementalCount: -1 }`. -/
def childContext (disabled : Option Bool) (ctx : Option IncrementalGroupContextType)
    (gid : String) : IncrementalGroupContextType :=
  { enabled := !(disabled.getD false || ctxEnabledIsFalse ctx),
    groupId := gid,
    incrementalCount := -1 }

/-- Written from the spec's words for comparison with the source-derived
`childContext`: `effectiveEnabled = !(locallyDisabled) && (ambientContext?.enabled !== false)`. -/
def specEffectiveEnabled (locallyDisabled : Bool)
    (ctx : Option IncrementalGroupContextType) : Bool :=
  !locallyDisabled && ambientNotFalse ctx

/-- C7: the enabled flag a Scope Group publishes equals the spec formula
`!(locallyDisabled) && (ambient enabled !== false)`, and whenever the
ambient context has `enabled = false` the published flag is false no matter
what the group's own `disabled` input is (disablement is sticky downward). -/
theorem spec_C7_sticky_disablement :
    (∀ (d : Option Bool) (ctx : Option IncrementalGroupContextType) (gid : String),
      (childContext d ctx gid).enabled = specEffectiveEnabled (d.getD false) ctx) ∧
    (∀ (d : Option Bool) (gid grpId : String) (cnt : Int),
      (childContext d (some ⟨false, grpId, cnt⟩) gid).enabled = false) := by
  constructor
  · intro d ctx gid
    cases ctx with
    | none => simp [childContext, specEffectiveEnabled, ambientNotFalse, ctxEnabledIsFalse]
    | some c =>
        cases hc : c.enabled <;>
          simp [childContext, specEffectiveEnabled, ambientNotFalse, ctxEnabledIsFalse, hc]
  · intro d gid grpId cnt
    simp [childContext, ctxEnabledIsFalse]

/-! Presentation Wrapper (`IncrementalPresenter.tsx`). -/

/-- JS test `disabled !== true` for an optional boolean prop. -/
def jsNeTrue (d : Option Bool) : Bool := !(d == some true)

/-- The `position` values used by the presenter. -/
inductive JsPosition where
  | absolute
  | relative
deriving DecidableEq, Repr

/-- The style override object merged over the caller style. -/
structure StyleOverride where
  opacity : Nat
  position : JsPosition
deriving DecidableEq, Repr

/-- A computed style: the caller's style passed straight through, or the
array `[style, override]` merging an override over it. -/
inductive PresenterStyle (α : Type) where
  | plain (s : α)
  | overlay (s : α) (o : StyleOverride)
deriving DecidableEq, Repr

/-- Observable actions of `onDoneInternal`, in execution order. -/
inductive PresenterAction (α : Type) where
  | setNativeProps (s : PresenterStyle α)
  | callOnDone
deriving DecidableEq, Repr

/-- The style the presenter renders its view with:
`disabled !== true && context?.enabled !== false && !isDoneRef.current`
selects `[style, {opacity: 0, position: 'absolute'}]`, otherwise the
caller's style. -/
def presenterViewStyle {α : Type} (disabled : Option Bool)
    (ctx : Option IncrementalGroupContextType) (isDone : Bool) (style : α) :
    PresenterStyle α :=
  if jsNeTrue disabled && ambientNotFalse ctx && !isDone then
    .overlay style ⟨0, .absolute⟩
  else
    .plain style

/-- `onDoneInternal`: latch `isDoneRef` true; when not disabled and ambient
enablement is not false, restore visibility with one `setNativeProps`
call (`[style, {opacity: 1, position: 'relative'}]`); then call `onDone`. -/
def onDoneInternal {α : Type} (disabled : Option Bool)
    (ctx : Option IncrementalGroupContextType) (style : α) :
    Bool × List (PresenterAction α) :=
  (true,
    (if jsNeTrue disabled && ambientNotFalse ctx then
      [PresenterAction.setNativeProps (.overlay style ⟨1, .relative⟩)]
    else []) ++ [PresenterAction.callOnDone])

/-- C9: while the presenter is not disabled, the ambient enablement is not
false and the done latch is unset, the subtree is rendered with the caller
style overridden by opacity 0 and absolute positioning; the first
completion signal flips the latch to true and performs exactly one direct
visual mutation (opacity 1, relative positioning) followed by the
wrapper's own `onDone`.  When disabled or the ambient enablement is false,
the caller's style passes straight through in every phase and completion
performs no visual mutation before `onDone`. -/
theorem spec_C9_presenter_phases {α : Type} (d : Option Bool)
    (ctx : Option IncrementalGroupContextType) (style : α) :
    ((jsNeTrue d && ambientNotFalse ctx) = true →
      presenterViewStyle d ctx false style =
        PresenterStyle.overlay style ⟨0, JsPosition.absolute⟩ ∧
      onDoneInternal d ctx style =
        (true, [PresenterAction.setNativeProps
          (PresenterStyle.overlay style ⟨1, JsPosition.relative⟩),
          PresenterAction.callOnDone])) ∧
    ((jsNeTrue d && ambientNotFalse ctx) = false →
      (∀ b, presenterViewStyle d ctx b style = PresenterStyle.plain style) ∧
      onDoneInternal d ctx style = (true, [PresenterAction.callOnDone])) := by
  constructor
  · intro h
    constructor
    · simp [presenterViewStyle, h]
    · simp [onDoneInternal, h]
  · intro h
    constructor
    · intro b
      simp [presenterViewStyle, h]
    · simp [onDoneInternal, h]

/-- C9 witness: a live presenter (no `disabled`, no ambient context) hides
then reveals with the native-props mutation; a disabled one passes the
style straight through. -/
theorem spec_C9_witness :
    presenterViewStyle none none false (0 : Nat) =
      PresenterStyle.overlay 0 ⟨0, JsPosition.absolute⟩ ∧
    onDoneInternal none none (0 : Nat) =
      (true, [PresenterAction.setNativeProps
        (PresenterStyle.overlay 0 ⟨1, JsPosition.relative⟩),
        PresenterAction.callOnDone]) ∧
    onDoneInternal (some true) none (0 : Nat) = (true, [PresenterAction.callOnDone]) :=
  ⟨((spec_C9_presenter_phases none none 0).1 (by decide)).1,
    ((spec_C9_presenter_phases none none 0).1 (by decide)).2,
    ((spec_C9_presenter_phases (some true) none 0).2 (by decide)).2⟩

/-! Scope ids (`IncrementalGroup.tsx`): the process-wide counter and the
hierarchical id built by `getGroupId`.  JS number-to-string conversion of
the counter is embedded as explicit decimal rendering. -/

/-- The decimal digit characters produced by JS number-to-string. -/
def digitChar : Nat → Char
  | 0 => '0'
  | 1 => '1'
  | 2 => '2'
  | 3 => '3'
  | 4 => '4'
  | 5 => '5'
  | 6 => '6'
  | 7 => '7'
  | 8 => '8'
  | 9 => '9'
  | _ => '*'

/-- High-order-first decimal digits of a positive number (empty at zero). -/
def natDecAux : Nat → List Char
  | 0 => []
  | n + 1 => natDecAux ((n + 1) / 10) ++ [digitChar ((n + 1) % 10)]
decreasing_by exact Nat.div_lt_self (Nat.succ_pos n) (by omega)

/-- The decimal digit list of a number, `['0']` at zero, as JS renders it. -/
def natDecChars (n : Nat) : List Char :=
  if n = 0 then ['0'] else natDecAux n

/-- JS decimal rendering `${n}` of a nonnegative counter value. -/
def natDec (n : Nat) : String := String.mk (natDecChars n)

theorem digitChar_ne_dash : ∀ d, d < 10 → digitChar d ≠ '-' := by decide

theorem digitChar_inj : ∀ d1, d1 < 10 → ∀ d2, d2 < 10 →
    digitChar d1 = digitChar d2 → d1 = d2 := by decide

theorem natDecAux_zero : natDecAux 0 = [] := by
  simp [natDecAux]

theorem natDecAux_succ (n : Nat) :
    natDecAux (n + 1) = natDecAux ((n + 1) / 10) ++ [digitChar ((n + 1) % 10)] := by
  simp [natDecAux]

theorem natDecAux_ne_nil (n : Nat) (h : 0 < n) : natDecAux n ≠ [] := by
  match n, h with
  | m + 1, _ =>
      rw [natDecAux_succ]
      simp

theorem natDecAux_mem : ∀ n, ∀ c ∈ natDecAux n, ∃ d, d < 10 ∧ c = digitChar d := by
  intro n
  induction n using Nat.strong_induction_on with
  | _ n ih =>
      match n with
      | 0 =>
          intro c hc
          rw [natDecAux_zero] at hc
          simp at hc
      | m + 1 =>
          intro c hc
          rw [natDecAux_succ] at hc
          rcases List.mem_append.1 hc with h1 | h2
          · exact ih ((m + 1) / 10) (Nat.div_lt_self (Nat.succ_pos m) (by omega)) c h1
          · have : c = digitChar ((m + 1) % 10) := by simpa using h2
            exact ⟨(m + 1) % 10, Nat.mod_lt _ (by omega), this⟩

theorem natDecChars_ne_dash (n : Nat) : ∀ c ∈ natDecChars n, c ≠ '-' := by
  intro c hc
  unfold natDecChars at hc
  split at hc
  · have : c = '0' := by simpa using hc
    subst this
    decide
  · obtain ⟨d, hd, rfl⟩ := natDecAux_mem n c hc
    exact digitChar_ne_dash d hd

theorem natDecAux_inj : ∀ n, ∀ m, natDecAux n = natDecAux m → n = m := by
  intro n
  induction n using Nat.strong_induction_on with
  | _ n ih =>
      intro m h
      match n, m with
      | 0, 0 => rfl
      | 0, m + 1 =>
          rw [natDecAux_zero] at h
          exact absurd h.symm (natDecAux_ne_nil (m + 1) (Nat.succ_pos m))
      | n + 1, 0 =>
          rw [natDecAux_zero] at h
          exact absurd h (natDecAux_ne_nil (n + 1) (Nat.succ_pos n))
      | n + 1, m + 1 =>
          rw [natDecAux_succ, natDecAux_succ] at h
          obtain ⟨h1, h2⟩ := List.append_inj' h (by simp)
          have hmod : (n + 1) % 10 = (m + 1) % 10 := by
            have hx : digitChar ((n + 1) % 10) = digitChar ((m + 1) % 10) := by
              simpa using h2
            exact digitChar_inj _ (Nat.mod_lt _ (by omega)) _ (Nat.mod_lt _ (by omega)) hx
          have hdiv : (n + 1) / 10 = (m + 1) / 10 :=
            ih ((n + 1) / 10) (Nat.div_lt_self (Nat.succ_pos n) (by omega)) ((m + 1) / 10) h1
          omega

theorem natDecAux_eq_nil (n : Nat) (h : natDecAux n = []) : n = 0 := by
  by_contra hn
  exact natDecAux_ne_nil n (Nat.pos_of_ne_zero hn) h

theorem natDecChars_inj : ∀ n m, natDecChars n = natDecChars m → n = m := by
  intro n m h
  unfold natDecChars at h
  split at h <;> split at h
  · omega
  · rename_i hn hm
    match m, Nat.pos_of_ne_zero hm with
    | k + 1, _ =>
        rw [natDecAux_succ] at h
        have h0 : [] ++ ['0'] = natDecAux ((k + 1) / 10) ++ [digitChar ((k + 1) % 10)] := by
          simpa using h
        obtain ⟨hq, hd⟩ := List.append_inj' h0 (by simp)
        have hm0 : (k + 1) % 10 = 0 := by
          have hx : digitChar ((k + 1) % 10) = digitChar 0 := by simpa using hd.symm
          exact digitChar_inj _ (Nat.mod_lt _ (by omega)) 0 (by omega) hx
        have hq0 : (k + 1) / 10 = 0 := natDecAux_eq_nil _ hq.symm
        omega
  · rename_i hn hm
    match n, Nat.pos_of_ne_zero hn with
    | k + 1, _ =>
        rw [natDecAux_succ] at h
        have h0 : natDecAux ((k + 1) / 10) ++ [digitChar ((k + 1) % 10)] = [] ++ ['0'] := by
          simpa using h
        obtain ⟨hq, hd⟩ := List.append_inj' h0 (by simp)
        have hm0 : (k + 1) % 10 = 0 := by
          have hx : digitChar ((k + 1) % 10) = digitChar 0 := by simpa using hd
          exact digitChar_inj _ (Nat.mod_lt _ (by omega)) 0 (by omega) hx
        have hq0 : (k + 1) / 10 = 0 := natDecAux_eq_nil _ hq
        omega
  · exact natDecAux_inj n m h

/-- A mounted group instance: its optional parent chain, the counter value
captured from `++_groupCounter` in `groupIncRef`, and its `name` prop. -/
inductive GroupInst where
  | root (counter : Nat) (name : String)
  | child (parent : GroupInst) (counter : Nat) (name : String)
deriving DecidableEq, Repr

/-- `groupIncRef.current`, the string `g${counter}-`. -/
def groupIncStr (c : Nat) : String := "g" ++ natDec c ++ "-"

/-- `getGroupId()`: ancestor id plus `:` when a parent context exists,
then the captured counter prefix and the group's name. -/
def getGroupId : GroupInst → String
  | .root c nm => "" ++ groupIncStr c ++ nm
  | .child p c nm => (getGroupId p ++ ":") ++ groupIncStr c ++ nm

/-- The counter value captured by an instance. -/
def counterOf : GroupInst → Nat
  | .root c _ => c
  | .child _ c _ => c

/-- The instance together with all its ancestors (each of which is itself a
mounted group instance), root first. -/
def ancestorsSelf : GroupInst → List GroupInst
  | .root c nm => [.root c nm]
  | .child p c nm => ancestorsSelf p ++ [.child p c nm]

/-- The root-first list of (counter, name) pairs along the instance's chain. -/
def toChain : GroupInst → List (Nat × String)
  | .root c nm => [(c, nm)]
  | .child p c nm => toChain p ++ [(c, nm)]

/-- The characters of one link's local id `g{counter}-{name}`. -/
def localChars (x : Nat × String) : List Char :=
  'g' :: (natDecChars x.1 ++ ('-' :: x.2.data))

/-- The characters of a whole chain's id, links joined by `:`. -/
def chainChars : List (Nat × String) → List Char
  | [] => []
  | [x] => localChars x
  | x :: y :: r => localChars x ++ (':' :: chainChars (y :: r))

/-- The counter of the last (deepest) link of a chain. -/
def lastCtr : List (Nat × String) → Nat
  | [] => 0
  | [x] => x.1
  | _ :: y :: r => lastCtr (y :: r)

/-- The module-level `_groupCounter` (initially `-1`) after `k` mounts,
each of which increments it. -/
def groupCounterAfter : Nat → Int
  | 0 => -1
  | k + 1 => groupCounterAfter k + 1

/-- The value of `++_groupCounter` captured by the `k`-th mounted group
(counting from zero). -/
def assignedGroupCounter (k : Nat) : Int := groupCounterAfter k + 1

theorem groupCounterAfter_eq (k : Nat) : groupCounterAfter k = (k : Int) - 1 := by
  induction k with
  | zero => rfl
  | succ m ih =>
      rw [show groupCounterAfter (m + 1) = groupCounterAfter m + 1 from rfl, ih]
      push_cast
      ring

theorem toChain_ne_nil (g : GroupInst) : toChain g ≠ [] := by
  cases g <;> simp [toChain]

theorem toChain_inj : ∀ g1 g2 : GroupInst, toChain g1 = toChain g2 → g1 = g2 := by
  intro g1
  induction g1 with
  | root c nm =>
      intro g2 h
      cases g2 with
      | root c2 nm2 =>
          simp [toChain] at h
          rw [h.1, h.2]
      | child p2 c2 nm2 =>
          exfalso
          have hl := congrArg List.length h
          simp [toChain] at hl
          exact toChain_ne_nil p2 hl
  | child p c nm ihp =>
      intro g2 h
      cases g2 with
      | root c2 nm2 =>
          exfalso
          have hl := congrArg List.length h
          simp [toChain] at hl
          exact toChain_ne_nil p hl
      | child p2 c2 nm2 =>
          simp only [toChain] at h
          obtain ⟨h1, h2⟩ := List.append_inj' h (by simp)
          have hx : (c, nm) = (c2, nm2) := by simpa using h2
          rw [ihp p2 h1]
          simp at hx
          rw [hx.1, hx.2]

theorem lastCtr_cons (x : Nat × String) (p : List (Nat × String)) (h : p ≠ []) :
    lastCtr (x :: p) = lastCtr p := by
  cases p with
  | nil => exact absurd rfl h
  | cons b r => rfl

theorem lastCtr_append (l : List (Nat × String)) (x : Nat × String) :
    lastCtr (l ++ [x]) = x.1 := by
  induction l with
  | nil => rfl
  | cons a t ih =>
      cases t with
      | nil => rfl
      | cons b r =>
          show lastCtr (a :: ((b :: r) ++ [x])) = x.1
          rw [lastCtr_cons a _ (by simp), ih]

theorem lastCtr_toChain (g : GroupInst) : lastCtr (toChain g) = counterOf g := by
  cases g with
  | root c nm => rfl
  | child p c nm => simp [toChain, counterOf, lastCtr_append]

theorem mem_ancestorsSelf_prefix (g : GroupInst) :
    ∀ p ∈ ancestorsSelf g, toChain p <+: toChain g := by
  induction g with
  | root c nm =>
      intro p hp
      simp [ancestorsSelf] at hp
      rw [hp]
  | child par c nm ih =>
      intro p hp
      simp only [ancestorsSelf, List.mem_append, List.mem_singleton] at hp
      rcases hp with hp | rfl
      · exact (ih p hp).trans ⟨[(c, nm)], rfl⟩
      · exact List.prefix_refl _

theorem prefix_toChain_mem (g : GroupInst) :
    ∀ pre, pre <+: toChain g → pre ≠ [] →
      ∃ p, p ∈ ancestorsSelf g ∧ toChain p = pre := by
  induction g with
  | root c nm =>
      intro pre hpre hne
      obtain ⟨t, ht⟩ := hpre
      cases pre with
      | nil => exact absurd rfl hne
      | cons a pre2 =>
          simp [toChain] at ht
          obtain ⟨ha, hrest⟩ := ht
          have h2 : pre2 = [] := hrest.1
          refine ⟨.root c nm, by simp [ancestorsSelf], ?_⟩
          rw [h2, ha]
          rfl
  | child par c nm ih =>
      intro pre hpre hne
      by_cases hl : pre.length ≤ (toChain par).length
      · have hp : pre <+: toChain par :=
          List.prefix_of_prefix_length_le hpre ⟨[(c, nm)], rfl⟩ hl
        obtain ⟨p, hmem, hp2⟩ := ih pre hp hne
        exact ⟨p, by simp [ancestorsSelf]; exact Or.inl hmem, hp2⟩
      · have hlen : pre.length = (toChain (.child par c nm)).length := by
          have h1 := hpre.length_le
          simp only [toChain, List.length_append, List.length_cons,
            List.length_nil] at h1 ⊢
          omega
        have : pre = toChain (.child par c nm) := List.IsPrefix.eq_of_length hpre hlen
        exact ⟨.child par c nm, by simp [ancestorsSelf], this.symm⟩

theorem strip_dash : ∀ d1 d2 t1 t2 : List Char,
    (∀ c ∈ d1, c ≠ '-') → (∀ c ∈ d2, c ≠ '-') →
    d1 ++ '-' :: t1 = d2 ++ '-' :: t2 → d1 = d2 ∧ t1 = t2 := by
  intro d1
  induction d1 with
  | nil =>
      intro d2 t1 t2 h1 h2 h
      cases d2 with
      | nil => simpa using h
      | cons b d2' =>
          exfalso
          simp only [List.nil_append, List.cons_append, List.cons.injEq] at h
          exact h2 b (by simp) h.1.symm
  | cons a d1' ih =>
      intro d2 t1 t2 h1 h2 h
      cases d2 with
      | nil =>
          exfalso
          simp only [List.nil_append, List.cons_append, List.cons.injEq] at h
          exact h1 a (by simp) h.1
      | cons b d2' =>
          simp only [List.cons_append, List.cons.injEq] at h
          obtain ⟨hab, ht⟩ := h
          obtain ⟨hd, htt⟩ :=
            ih d2' t1 t2 (fun c hc => h1 c (by simp [hc])) (fun c hc => h2 c (by simp [hc])) ht
          exact ⟨by rw [hab, hd], htt⟩

theorem localChars_append_inj (x1 x2 : Nat × String) (r1 r2 : List Char)
    (h : localChars x1 ++ r1 = localChars x2 ++ r2) :
    x1.1 = x2.1 ∧ x1.2.data ++ r1 = x2.2.data ++ r2 := by
  unfold localChars at h
  have h2 : natDecChars x1.1 ++ ('-' :: (x1.2.data ++ r1)) =
      natDecChars x2.1 ++ ('-' :: (x2.2.data ++ r2)) := by
    simpa [List.cons_append, List.append_assoc] using h
  obtain ⟨hd, ht⟩ :=
    strip_dash _ _ _ _ (natDecChars_ne_dash x1.1) (natDecChars_ne_dash x2.1) h2
  exact ⟨natDecChars_inj _ _ hd, ht⟩

theorem chainChars_pair (x y : Nat × String) (r : List (Nat × String)) :
    chainChars (x :: y :: r) = localChars x ++ (':' :: chainChars (y :: r)) := rfl

theorem chainChars_append_single (l : List (Nat × String)) (x : Nat × String) :
    l ≠ [] → chainChars (l ++ [x]) = chainChars l ++ (':' :: localChars x) := by
  induction l with
  | nil => intro h; exact absurd rfl h
  | cons a t ih =>
      intro _
      cases t with
      | nil => rfl
      | cons b r =>
          show chainChars (a :: (b :: (r ++ [x]))) = _
          rw [chainChars_pair]
          rw [show b :: (r ++ [x]) = (b :: r) ++ [x] from rfl]
          rw [ih (by simp), chainChars_pair]
          simp [List.append_assoc]

theorem natDec_data (n : Nat) : (natDec n).data = natDecChars n := rfl

theorem getGroupId_data (g : GroupInst) :
    (getGroupId g).data = chainChars (toChain g) := by
  induction g with
  | root c nm =>
      show ("" ++ groupIncStr c ++ nm).data = chainChars [(c, nm)]
      show ("" ++ groupIncStr c ++ nm).data = localChars (c, nm)
      simp [String.data_append, groupIncStr, natDec_data, localChars,
        List.append_assoc]
  | child p c nm ih =>
      show ((getGroupId p ++ ":") ++ groupIncStr c ++ nm).data =
        chainChars (toChain p ++ [(c, nm)])
      rw [chainChars_append_single _ _ (toChain_ne_nil p)]
      simp [String.data_append, ih, groupIncStr, natDec_data, localChars,
        List.append_assoc]

theorem chainChars_inj : ∀ l1 l2 : List (Nat × String),
    l1 ≠ [] → l2 ≠ [] →
    (∀ p q : List (Nat × String),
      (p <+: l1 ∨ p <+: l2) → p ≠ [] →
      (q <+: l1 ∨ q <+: l2) → q ≠ [] →
      lastCtr p = lastCtr q → p = q) →
    chainChars l1 = chainChars l2 → l1 = l2 := by
  intro l1
  induction l1 with
  | nil => intro l2 h1 _ _ _; exact absurd rfl h1
  | cons x1 t1 ih =>
      intro l2 _ h2 H hc
      cases l2 with
      | nil => exact absurd rfl h2
      | cons x2 t2 =>
          cases t1 with
          | nil =>
              cases t2 with
              | nil =>
                  have h0 : localChars x1 ++ ([] : List Char) =
                      localChars x2 ++ ([] : List Char) := by simpa using hc
                  have hl := localChars_append_inj x1 x2 [] [] h0
                  exact H [x1] [x2] (Or.inl (List.prefix_refl _)) (by simp)
                    (Or.inr (List.prefix_refl _)) (by simp) hl.1
              | cons y2 r2 =>
                  exfalso
                  have h0 : localChars x1 ++ ([] : List Char) =
                      localChars x2 ++ (':' :: chainChars (y2 :: r2)) := by
                    simpa [chainChars_pair] using hc
                  have hl := localChars_append_inj x1 x2 _ _ h0
                  have hx : [x1] = [x2] :=
                    H [x1] [x2] (Or.inl (List.prefix_refl _)) (by simp)
                      (Or.inr ⟨y2 :: r2, rfl⟩) (by simp) hl.1
                  have hx12 : x1 = x2 := by
                    injection hx
                  rw [hx12] at hl
                  have h3 : ([] : List Char) = ':' :: chainChars (y2 :: r2) :=
                    List.append_cancel_left hl.2
                  exact List.noConfusion h3
          | cons y1 r1 =>
              cases t2 with
              | nil =>
                  exfalso
                  have h0 : localChars x1 ++ (':' :: chainChars (y1 :: r1)) =
                      localChars x2 ++ ([] : List Char) := by
                    simpa [chainChars_pair] using hc
                  have hl := localChars_append_inj x1 x2 _ _ h0
                  have hx : [x1] = [x2] :=
                    H [x1] [x2] (Or.inl ⟨y1 :: r1, rfl⟩) (by simp)
                      (Or.inr (List.prefix_refl _)) (by simp) hl.1
                  have hx12 : x1 = x2 := by
                    injection hx
                  rw [hx12] at hl
                  have h3 : ':' :: chainChars (y1 :: r1) = ([] : List Char) :=
                    List.append_cancel_left hl.2
                  exact List.noConfusion h3
              | cons y2 r2 =>
                  have h0 : localChars x1 ++ (':' :: chainChars (y1 :: r1)) =
                      localChars x2 ++ (':' :: chainChars (y2 :: r2)) := by
                    simpa [chainChars_pair] using hc
                  have hl := localChars_append_inj x1 x2 _ _ h0
                  have hx : [x1] = [x2] :=
                    H [x1] [x2] (Or.inl ⟨y1 :: r1, rfl⟩) (by simp)
                      (Or.inr ⟨y2 :: r2, rfl⟩) (by simp) hl.1
                  have hx12 : x1 = x2 := by
                    injection hx
                  rw [← hx12] at hl H hc
                  have h3 : ':' :: chainChars (y1 :: r1) = ':' :: chainChars (y2 :: r2) :=
                    List.append_cancel_left hl.2
                  have hcc : chainChars (y1 :: r1) = chainChars (y2 :: r2) := by
                    injection h3
                  have H2 : ∀ p q : List (Nat × String),
                      (p <+: y1 :: r1 ∨ p <+: y2 :: r2) → p ≠ [] →
                      (q <+: y1 :: r1 ∨ q <+: y2 :: r2) → q ≠ [] →
                      lastCtr p = lastCtr q → p = q := by
                    intro p q hp hpne hq hqne hctr
                    have hp' : x1 :: p <+: x1 :: y1 :: r1 ∨ x1 :: p <+: x1 :: y2 :: r2 := by
                      rcases hp with h | h
                      · obtain ⟨s, hs⟩ := h
                        exact Or.inl ⟨s, by rw [List.cons_append, hs]⟩
                      · obtain ⟨s, hs⟩ := h
                        exact Or.inr ⟨s, by rw [List.cons_append, hs]⟩
                    have hq' : x1 :: q <+: x1 :: y1 :: r1 ∨ x1 :: q <+: x1 :: y2 :: r2 := by
                      rcases hq with h | h
                      · obtain ⟨s, hs⟩ := h
                        exact Or.inl ⟨s, by rw [List.cons_append, hs]⟩
                      · obtain ⟨s, hs⟩ := h
                        exact Or.inr ⟨s, by rw [List.cons_append, hs]⟩
                    have hctr' : lastCtr (x1 :: p) = lastCtr (x1 :: q) := by
                      rw [lastCtr_cons _ _ hpne, lastCtr_cons _ _ hqne]
                      exact hctr
                    have := H (x1 :: p) (x1 :: q) hp' (by simp) hq' (by simp) hctr'
                    injection this
                  have ht : y1 :: r1 = y2 :: r2 :=
                    ih (y2 :: r2) (by simp) (by simp) H2 hcc
                  rw [hx12, ht]

/-- C8: the counter value assigned at the k-th group mount is k (the
process-wide counter is never reset or decremented, so assigned values are
pairwise distinct), and any two distinct group instances whose mounted
ancestors-or-selves carry pairwise distinct counters have distinct scope
ids — in particular two sibling groups with the same name. -/
theorem spec_C8_scope_ids_distinct :
    (∀ k : Nat, assignedGroupCounter k = (k : Int)) ∧
    (∀ a b : GroupInst,
      (∀ p q : GroupInst, p ∈ ancestorsSelf a ++ ancestorsSelf b →
        q ∈ ancestorsSelf a ++ ancestorsSelf b → counterOf p = counterOf q → p = q) →
      a ≠ b → getGroupId a ≠ getGroupId b) := by
  constructor
  · intro k
    rw [assignedGroupCounter, groupCounterAfter_eq]
    ring
  · intro a b H hne heq
    have hdata := congrArg String.data heq
    rw [getGroupId_data, getGroupId_data] at hdata
    have Hlist : ∀ p q : List (Nat × String),
        (p <+: toChain a ∨ p <+: toChain b) → p ≠ [] →
        (q <+: toChain a ∨ q <+: toChain b) → q ≠ [] →
        lastCtr p = lastCtr q → p = q := by
      intro p q hp hpne hq hqne hctr
      have hp' : ∃ p', p' ∈ ancestorsSelf a ++ ancestorsSelf b ∧ toChain p' = p := by
        rcases hp with h | h
        · obtain ⟨p', hm, he⟩ := prefix_toChain_mem a p h hpne
          exact ⟨p', List.mem_append_left _ hm, he⟩
        · obtain ⟨p', hm, he⟩ := prefix_toChain_mem b p h hpne
          exact ⟨p', List.mem_append_right _ hm, he⟩
      have hq' : ∃ q', q' ∈ ancestorsSelf a ++ ancestorsSelf b ∧ toChain q' = q := by
        rcases hq with h | h
        · obtain ⟨q', hm, he⟩ := prefix_toChain_mem a q h hqne
          exact ⟨q', List.mem_append_left _ hm, he⟩
        · obtain ⟨q', hm, he⟩ := prefix_toChain_mem b q h hqne
          exact ⟨q', List.mem_append_right _ hm, he⟩
      obtain ⟨p', hpm, hpe⟩ := hp'
      obtain ⟨q', hqm, hqe⟩ := hq'
      have hc' : counterOf p' = counterOf q' := by
        rw [← lastCtr_toChain, ← lastCtr_toChain, hpe, hqe]
        exact hctr
      have hpq := H p' q' hpm hqm hc'
      rw [← hpe, ← hqe, hpq]
    have hch := chainChars_inj (toChain a) (toChain b)
      (toChain_ne_nil a) (toChain_ne_nil b) Hlist hdata
    exact hne (toChain_inj a b hch)

/-- C8 witness: two sibling groups both named `row`, mounted zeroth and
first, get distinct scope ids `g0-row` and `g1-row`. -/
theorem spec_C8_witness :
    assignedGroupCounter 5 = (5 : Int) ∧
    getGroupId (GroupInst.root 0 "row") ≠ getGroupId (GroupInst.root 1 "row") := by
  have H : ∀ p q : GroupInst,
      p ∈ ancestorsSelf (GroupInst.root 0 "row") ++
        ancestorsSelf (GroupInst.root 1 "row") →
      q ∈ ancestorsSelf (GroupInst.root 0 "row") ++
        ancestorsSelf (GroupInst.root 1 "row") →
      counterOf p = counterOf q → p = q := by
    intro p q hp hq hctr
    simp [ancestorsSelf] at hp hq
    rcases hp with rfl | rfl <;> rcases hq with rfl | rfl <;>
      first
        | rfl
        | (exfalso; simp [counterOf] at hctr)
  exact ⟨spec_C8_scope_ids_distinct.1 5,
    spec_C8_scope_ids_distinct.2 (GroupInst.root 0 "row") (GroupInst.root 1 "row") H
      (by decide)⟩
